import Mathlib

/-!
Verification of the wav note detector (shallow embedding of `src/main.rs`).

The program slides overlapping Hann-windowed frames over a sample buffer,
takes an FFT per frame, finds the dominant spectral bin, converts it to a
frequency, quantizes that frequency to a MIDI note number, and tallies
note occurrences in a histogram that is finally sorted by count.

Machine floats (`f32`) are embedded as real numbers; `u8`/`usize`
arithmetic is embedded as `Nat` (Rust's `saturating_sub` is exactly `Nat`
subtraction).
-/

namespace WavNoteDetector

/-- Hann window from `src/main.rs` lines 7-10:
`(pi * i as f32 / (size as f32)).sin().powi(2)`. -/
noncomputable def hann (i size : ℕ) : ℝ :=
  Real.sin (Real.pi * i / size) ^ 2

/-- The unrounded MIDI note number `69.0 + 12.0 * (freq / 440.0).log2()`
from `src/main.rs` line 16. -/
noncomputable def note_num (freq : ℝ) : ℝ :=
  69 + 12 * Real.logb 2 (freq / 440)

/-- The quantizer `freq_to_midi_note` from `src/main.rs` lines 12-22: reject
non-positive frequencies, compute the unrounded note number, reject it when
it lies outside `[0, 127]`, otherwise round and cast to `u8` (the cast is
exact here because of the guard; `Int.toNat` agrees with Rust's saturating
float-to-int cast on the guarded range). -/
noncomputable def freq_to_midi_note (freq : ℝ) : Option ℕ :=
  if freq ≤ 0 then none
  else if note_num freq < 0 ∨ note_num freq > 127 then none
  else some (round (note_num freq)).toNat

/-- The note-class table from `src/main.rs` line 25: the twelve names
C, C#, D, D#, E, F, F#, G, G#, A, A#, B in order (built here by splitting
one string; the resulting list is literally the source's array). -/
def note_names : List String :=
  "C" :: "C#" :: "D" :: "D#" :: "E" :: "F" ::
    "F#" :: "G" :: "G#" :: "A" :: "A#" :: "B" :: []

lemma note_names_length : note_names.length = 12 := rfl

/-- `midi_note_to_name` from `src/main.rs` lines 24-29.  The `u8` octave
computation `(note / 12).saturating_sub(1)` is `Nat` subtraction; the
table indexing `note_names[note_index]` (which would panic out of bounds)
is embedded as the fallible `getElem?`, so totality is a theorem rather
than an assumption. -/
def midi_note_to_name (note : ℕ) : Option String :=
  match note_names[note % 12]? with
  | some nm => some (nm ++ toString (note / 12 - 1))
  | none => none

/-- Claim C5: for every non-positive frequency the quantizer answers
"no pitch" (`none`), not an error. -/
theorem C5_theorem (freq : ℝ) (h : freq ≤ 0) : freq_to_midi_note freq = none := by
  unfold freq_to_midi_note
  rw [if_pos h]

/-- Witness for C5 at the concrete frequency `-3`. -/
theorem C5_witness : freq_to_midi_note (-3) = none :=
  C5_theorem (-3) (by norm_num)

/-- Claim C7: for valid `(i, N)` the Hann weight lies in `[0, 1]`, is `0`
at `i = 0`, and is symmetric about the frame midpoint,
`hann i N = hann (N - i) N`; purity/determinism holds because `hann` is a
function of `(i, N)` alone. -/
theorem C7_theorem (i n : ℕ) (hn : 0 < n) (hi : i < n) :
    (0 ≤ hann i n ∧ hann i n ≤ 1) ∧ hann 0 n = 0 ∧ hann i n = hann (n - i) n := by
  refine ⟨⟨sq_nonneg _, Real.sin_sq_le_one _⟩, ?_, ?_⟩
  · simp [hann]
  · unfold hann
    have hn' : (n : ℝ) ≠ 0 := Nat.cast_ne_zero.mpr hn.ne'
    have hcast : ((n - i : ℕ) : ℝ) = (n : ℝ) - i := by
      push_cast [Nat.cast_sub hi.le]
      ring
    rw [hcast]
    have harg : Real.pi * ((n : ℝ) - i) / n = Real.pi - Real.pi * i / n := by
      field_simp
      ring
    rw [harg, Real.sin_pi_sub]

/-- Witness for C7 at `i = 1`, `N = 4`. -/
theorem C7_witness :
    (0 ≤ hann 1 4 ∧ hann 1 4 ≤ 1) ∧ hann 0 4 = 0 ∧ hann 1 4 = hann (4 - 1) 4 :=
  C7_theorem 1 4 (by norm_num) (by norm_num)

/-- Claim C10: `midi_note_to_name` is total on every `u8` input: the table
index `note % 12` is always in bounds and a name string is always
produced (no panic), including for notes `128`-`255`. -/
theorem C10_theorem (note : ℕ) (_h : note < 256) :
    note % 12 < note_names.length ∧ (midi_note_to_name note).isSome = true := by
  have h12 : note % 12 < 12 := Nat.mod_lt _ (by norm_num)
  have hlen : note % 12 < note_names.length := by
    rw [note_names_length]
    exact h12
  refine ⟨hlen, ?_⟩
  have hnm : note_names[note % 12]? = some note_names[note % 12] :=
    List.getElem?_eq_getElem hlen
  simp [midi_note_to_name, hnm]

/-- Witness for C10 at the largest `u8`, `note = 255`. -/
theorem C10_witness :
    255 % 12 < note_names.length ∧ (midi_note_to_name 255).isSome = true :=
  C10_theorem 255 (by norm_num)

/-- Evaluation of the quantizer at the reference frequency: the note number
is exactly 69 because `logb 2 1 = 0`. -/
lemma note_num_440 : note_num 440 = 69 := by
  unfold note_num
  norm_num [Real.logb_one]

/-- Evaluation of the quantizer at the reference frequency 440 Hz. -/
lemma freq_to_midi_note_440 : freq_to_midi_note 440 = some 69 := by
  unfold freq_to_midi_note
  rw [if_neg (by norm_num : ¬(440 : ℝ) ≤ 0)]
  rw [note_num_440]
  rw [if_neg (by norm_num)]
  have hround : round (69 : ℝ) = 69 := by
    rw [round_eq]
    norm_num
  rw [hround]
  rfl

/-- Claim C4: the round trip at the reference frequency,
`midi_note_to_name` applied to `freq_to_midi_note 440.0`, yields `"A4"`. -/
theorem C4_theorem : (freq_to_midi_note 440).bind midi_note_to_name = some "A4" := by
  rw [freq_to_midi_note_440]
  decide

/-- The frame start offsets visited by the scan loop in `src/main.rs` line 66,
`for start in (0..samples.len().saturating_sub(fft_size)).step_by(hop_size)`:
for a positive hop these are exactly the multiples of the hop lying in the
half-open interval `[0, N - F)`, with `N - F` the `Nat` (saturating)
subtraction. -/
def frameStarts (n f h : ℕ) : List ℕ :=
  (List.range (n - f)).filter (fun s => s % h = 0)

/-- The frame count the specification asserts:
`floor((N - F) / H) + 1` when `N >= F`, and `0` when `N < F`. -/
def specFrameCount (n f h : ℕ) : ℕ :=
  if f ≤ n then (n - f) / h + 1 else 0

/-- Counting multiples of a positive `h` below `m`: there are
`(m + h - 1) / h` of them (the ceiling of `m / h`). -/
lemma length_filter_mod_range (h : ℕ) (hh : 0 < h) (m : ℕ) :
    ((List.range m).filter (fun s => s % h = 0)).length = (m + h - 1) / h := by
  induction m with
  | zero =>
    simp [Nat.div_eq_of_lt (by omega : h - 1 < h)]
  | succ m ih =>
    rw [List.range_succ, List.filter_append, List.length_append, ih]
    have hstep : (m + 1 + h - 1) / h = (m + h - 1) / h + if h ∣ m + h then 1 else 0 := by
      rw [show m + 1 + h - 1 = (m + h - 1) + 1 by omega, Nat.succ_div,
        show m + h - 1 + 1 = m + h by omega]
    have hdvd : (h ∣ m + h) ↔ m % h = 0 := by
      rw [Nat.dvd_add_self_right]
      exact Nat.dvd_iff_mod_eq_zero
    by_cases hm : m % h = 0
    · rw [hstep, if_pos (hdvd.mpr hm)]
      simp [hm]
    · rw [hstep, if_neg (fun hd => hm (hdvd.mp hd))]
      simp [hm]

/-- Claim C1, amended: for a positive hop the scan processes exactly
`ceil((N - F) / H) = (N - F + H - 1) / H` frames (`Nat` subtraction), which
is `floor((N - F - 1) / H) + 1` when `N > F` and `0` when `N <= F`; the
offsets processed are exactly the hop multiples `s` with `s + F < N`, i.e.
the scan terminates as soon as `s + F >= N`, so the frame ending exactly at
the buffer end is also dropped. -/
theorem C1_theorem (n f h : ℕ) (hh : 0 < h) :
    (frameStarts n f h).length = (n - f + h - 1) / h ∧
    ∀ s, s ∈ frameStarts n f h ↔ (s % h = 0 ∧ s + f < n) := by
  constructor
  · exact length_filter_mod_range h hh (n - f)
  · intro s
    simp only [frameStarts, List.mem_filter, List.mem_range, decide_eq_true_eq]
    constructor
    · rintro ⟨hs, hmod⟩
      exact ⟨hmod, by omega⟩
    · rintro ⟨hmod, hs⟩
      exact ⟨by omega, hmod⟩

/-- Witness for C1 at `N = 10`, `F = 4`, `H = 3`: two frames (offsets 0, 3). -/
theorem C1_witness :
    (frameStarts 10 4 3).length = (10 - 4 + 3 - 1) / 3 ∧
    (3 ∈ frameStarts 10 4 3 ↔ (3 % 3 = 0 ∧ 3 + 4 < 10)) :=
  ⟨(C1_theorem 10 4 3 (by norm_num)).1, (C1_theorem 10 4 3 (by norm_num)).2 3⟩

/-- Counterexample to claim C1 as stated: at `N = F = 4`, `H = 2` the claim
demands `floor((4-4)/2) + 1 = 1` processed frame, but the code's loop bound
`0..saturating_sub(N, F)` is exclusive, so it processes none. -/
theorem C1_counterexample :
    (frameStarts 4 4 2).length = 0 ∧ specFrameCount 4 4 2 = 1 := by
  decide

/-- Claim C9: every sample access of every processed frame is in bounds:
a frame start `s` produced by the scan satisfies `s + i < N` for every
in-frame index `i < F` (the final partial frame is dropped, never read). -/
theorem C9_theorem (n f h s i : ℕ) (hs : s ∈ frameStarts n f h) (hi : i < f) :
    s + i < n := by
  simp only [frameStarts, List.mem_filter, List.mem_range] at hs
  omega

/-- Witness for C9: frame at offset 2 of an 8-sample buffer, in-frame index 3. -/
theorem C9_witness : 2 ∈ frameStarts 8 4 2 ∧ 2 + 3 < 8 :=
  ⟨by decide, C9_theorem 8 4 2 2 3 (by decide) (by decide)⟩

/-- The histogram is a count per MIDI note; `*note_counts.entry(n).or_insert(0) += 1`
from `src/main.rs` line 93. -/
def increment (counts : ℕ → ℕ) (note : ℕ) : ℕ → ℕ :=
  Function.update counts note (counts note + 1)

/-- The tail of the per-frame loop body, `src/main.rs` lines 84-94: the
low-frequency and noise-floor rejection filters followed by quantization
and the histogram increment.  The result is the histogram after the frame. -/
noncomputable def frame_update (freq max_mag : ℝ) (counts : ℕ → ℕ) : ℕ → ℕ :=
  if freq < 20 ∨ max_mag < 1 / 100 then counts
  else
    match freq_to_midi_note freq with
    | some midi_note => increment counts midi_note
    | none => counts

/-- Claim C8: a frame whose peak frequency is below the 20 Hz floor or whose
peak magnitude is below the 0.01 threshold leaves the histogram unchanged
(the frame is silently skipped, no error). -/
theorem C8_theorem (freq max_mag : ℝ) (counts : ℕ → ℕ)
    (h : freq < 20 ∨ max_mag < 1 / 100) :
    frame_update freq max_mag counts = counts := by
  unfold frame_update
  rw [if_pos h]

/-- Witness for C8: a 10 Hz peak is rejected whatever its magnitude. -/
theorem C8_witness :
    ((10 : ℝ) < 20 ∨ (1 : ℝ) < 1 / 100) ∧
    frame_update 10 1 (fun _ => 0) = (fun _ => 0) :=
  ⟨Or.inl (by norm_num), C8_theorem 10 1 (fun _ => 0) (Or.inl (by norm_num))⟩

/-- Round half away from zero, the rounding mode the specification names
(and the semantics of Rust's `f32::round`). -/
noncomputable def roundAway (x : ℝ) : ℤ :=
  if 0 ≤ x then ⌊x + 1 / 2⌋ else -⌊-x + 1 / 2⌋

/-- The quantizer exactly as claim C2 words it: for a positive frequency,
round the note number first and range-check the rounded value. -/
noncomputable def freq_to_midi_note_claim (freq : ℝ) : Option ℕ :=
  if freq ≤ 0 then none
  else if roundAway (note_num freq) < 0 ∨ roundAway (note_num freq) > 127 then none
  else some (roundAway (note_num freq)).toNat

/-- A frequency whose unrounded note number is exactly `127.25 = 509/4`:
`440 * 2 ^ (233/4/12)`, since `69 + 233/4 = 509/4`. -/
noncomputable def cexFreq : ℝ := 440 * (2 : ℝ) ^ ((233 / 4 : ℝ) / 12)

lemma cexFreq_pos : 0 < cexFreq := by
  unfold cexFreq
  positivity

lemma note_num_cexFreq : note_num cexFreq = 509 / 4 := by
  unfold note_num cexFreq
  rw [mul_div_cancel_left₀ _ (by norm_num : (440 : ℝ) ≠ 0)]
  rw [Real.logb_rpow (by norm_num) (by norm_num)]
  norm_num

/-- Counterexample to claim C2 as stated: at the strictly positive frequency
`cexFreq` the note number is `127.25`, whose rounded value `127` is inside
`[0, 127]`, so the claim demands `some 127`; the code range-checks the
unrounded value `127.25 > 127` and answers `none`. -/
theorem C2_counterexample :
    0 < cexFreq ∧ freq_to_midi_note cexFreq = none ∧
    freq_to_midi_note_claim cexFreq = some 127 := by
  have hround : roundAway (509 / 4 : ℝ) = 127 := by
    unfold roundAway
    rw [if_pos (by norm_num)]
    rw [show (509 / 4 : ℝ) + 1 / 2 = 511 / 4 by norm_num]
    rw [show (127 : ℤ) = ⌊(511 / 4 : ℝ)⌋ from by
      symm
      rw [Int.floor_eq_iff]
      norm_num]
  refine ⟨cexFreq_pos, ?_, ?_⟩
  · unfold freq_to_midi_note
    rw [if_neg (not_le.mpr cexFreq_pos), note_num_cexFreq,
      if_pos (Or.inr (by norm_num))]
  · unfold freq_to_midi_note_claim
    rw [if_neg (not_le.mpr cexFreq_pos), note_num_cexFreq, hround,
      if_neg (by norm_num)]
    rfl

/-- Claim C2, amended: for a strictly positive frequency the code computes
the unrounded `note_num = 69 + 12 * log2(freq / 440)` and answers "no
pitch" exactly when that UNROUNDED value falls outside `[0, 127]`;
otherwise it returns the rounded value, where on the guarded nonnegative
range rounding half away from zero coincides with the `round` used here. -/
theorem C2_theorem (freq : ℝ) (hpos : 0 < freq) :
    (note_num freq < 0 ∨ 127 < note_num freq → freq_to_midi_note freq = none) ∧
    (0 ≤ note_num freq → note_num freq ≤ 127 →
      freq_to_midi_note freq = some (round (note_num freq)).toNat ∧
      roundAway (note_num freq) = round (note_num freq)) := by
  constructor
  · intro hout
    unfold freq_to_midi_note
    rw [if_neg (not_le.mpr hpos), if_pos hout]
  · intro h0 h127
    constructor
    · unfold freq_to_midi_note
      rw [if_neg (not_le.mpr hpos), if_neg (by push_neg; exact ⟨h0, h127⟩)]
    · unfold roundAway
      rw [if_pos h0, round_eq]

/-- Witness for C2 at 440 Hz: the note number is exactly 69, in range, and
the quantizer answers `some 69`. -/
theorem C2_witness : freq_to_midi_note 440 = some 69 := by
  have h := (C2_theorem 440 (by norm_num)).2
    (by rw [note_num_440]; norm_num) (by rw [note_num_440]; norm_num)
  rw [h.1, note_num_440]
  have hround : round (69 : ℝ) = 69 := by
    rw [round_eq]
    norm_num
  rw [hround]
  rfl

/-- Stable insertion of a histogram entry into a count-descending sorted
list: the entry goes before the first strictly smaller count and after all
earlier entries with greater-or-equal counts. -/
def insertByCountDesc (x : ℕ × ℕ) : List (ℕ × ℕ) → List (ℕ × ℕ)
  | [] => [x]
  | y :: ys => if y.2 ≤ x.2 then x :: y :: ys else y :: insertByCountDesc x ys

/-- The ranking step of `src/main.rs` lines 98-99: the vector of entries the
`HashMap` yields, stably sorted by count descending.  Rust's stable
`sort_by(|a, b| b.1.cmp(&a.1))` and this stable insertion sort agree on
every input, since the stable descending reordering is unique. -/
def rankSort : List (ℕ × ℕ) → List (ℕ × ℕ)
  | [] => []
  | x :: xs => insertByCountDesc x (rankSort xs)

lemma mem_insertByCountDesc {z x : ℕ × ℕ} {l : List (ℕ × ℕ)} :
    z ∈ insertByCountDesc x l ↔ z = x ∨ z ∈ l := by
  induction l with
  | nil => simp [insertByCountDesc]
  | cons y ys ih =>
    rw [insertByCountDesc]
    by_cases hxy : y.2 ≤ x.2
    · rw [if_pos hxy]
      simp
    · rw [if_neg hxy]
      simp only [List.mem_cons, ih]
      tauto

lemma pairwise_insertByCountDesc (x : ℕ × ℕ) (l : List (ℕ × ℕ))
    (hl : l.Pairwise (fun a b => b.2 ≤ a.2)) :
    (insertByCountDesc x l).Pairwise (fun a b => b.2 ≤ a.2) := by
  induction l with
  | nil => simp [insertByCountDesc]
  | cons y ys ih =>
    obtain ⟨hy, hys⟩ := List.pairwise_cons.mp hl
    rw [insertByCountDesc]
    by_cases hxy : y.2 ≤ x.2
    · rw [if_pos hxy]
      refine List.pairwise_cons.mpr ⟨?_, hl⟩
      intro z hz
      rcases List.mem_cons.mp hz with hz | hz
      · rw [hz]; exact hxy
      · exact le_trans (hy z hz) hxy
    · rw [if_neg hxy]
      refine List.pairwise_cons.mpr ⟨?_, ih hys⟩
      intro z hz
      rcases mem_insertByCountDesc.mp hz with hz | hz
      · rw [hz]; exact le_of_lt (not_le.mp hxy)
      · exact hy z hz

lemma perm_insertByCountDesc (x : ℕ × ℕ) (l : List (ℕ × ℕ)) :
    (insertByCountDesc x l).Perm (x :: l) := by
  induction l with
  | nil => rfl
  | cons y ys ih =>
    rw [insertByCountDesc]
    by_cases hxy : y.2 ≤ x.2
    · rw [if_pos hxy]
    · rw [if_neg hxy]
      exact ((ih.cons y).trans (List.Perm.swap x y ys))

/-- Claim C3, amended: the ranked output is always sorted by count
descending and is a permutation of the entries the map yields; it is a
deterministic function of that entry sequence, but the tie order among
equal counts follows the map's iteration order, which Rust's randomized
`HashMap` does not fix across runs. -/
theorem C3_theorem (entries : List (ℕ × ℕ)) :
    (rankSort entries).Pairwise (fun a b => b.2 ≤ a.2) ∧
    (rankSort entries).Perm entries := by
  induction entries with
  | nil => exact ⟨List.Pairwise.nil, List.Perm.refl []⟩
  | cons x xs ih =>
    rw [rankSort]
    exact ⟨pairwise_insertByCountDesc x (rankSort xs) ih.1,
      (perm_insertByCountDesc x (rankSort xs)).trans (ih.2.cons x)⟩

/-- Counterexample to the cross-run determinism half of claim C3: the same
histogram content `{60 ↦ 1, 62 ↦ 1}` iterated in two orders (both orders
are reachable `HashMap` iteration sequences of the same insertions) is
ranked into two different outputs, so equal-count ties are not stable
across runs. -/
theorem C3_counterexample :
    List.Perm [((60 : ℕ), (1 : ℕ)), (62, 1)] [(62, 1), (60, 1)] ∧
    rankSort [((60 : ℕ), (1 : ℕ)), (62, 1)] ≠ rankSort [(62, 1), (60, 1)] := by
  constructor
  · exact List.Perm.swap (62, 1) (60, 1) []
  · decide

/-- Complex magnitude `buffer[i].norm()`, i.e. `sqrt(re^2 + im^2)`. -/
noncomputable def cnorm (c : ℝ × ℝ) : ℝ := Real.sqrt (c.1 ^ 2 + c.2 ^ 2)

/-- Magnitude of bin `i` of a spectrum (the scan only reads in-bounds bins,
so the default is never observed by the claims). -/
noncomputable def mag (buffer : List (ℝ × ℝ)) (i : ℕ) : ℝ :=
  cnorm (buffer.getD i (0, 0))

/-- One iteration of the peak scan of `src/main.rs` lines 74-82:
`if mag > max_mag { max_mag = mag; max_bin = i; }`. -/
noncomputable def peak_step (buffer : List (ℝ × ℝ)) (acc : ℕ × ℝ) (i : ℕ) : ℕ × ℝ :=
  if acc.2 < mag buffer i then (i, mag buffer i) else acc

/-- The peak scan over the first `k` bins after DC, starting from the
initial state `(max_bin, max_mag) = (0, 0.0)`. -/
noncomputable def find_peak_aux (buffer : List (ℝ × ℝ)) (k : ℕ) : ℕ × ℝ :=
  (List.range' 1 k).foldl (peak_step buffer) (0, 0)

/-- The whole peak scan `for i in 1..(fft_size / 2)`: bins `1` through
`N/2 - 1`. -/
noncomputable def find_peak (buffer : List (ℝ × ℝ)) : ℕ × ℝ :=
  find_peak_aux buffer (buffer.length / 2 - 1)

/-- Invariant of the peak-scan fold: the accumulated magnitude is
nonnegative and dominates every scanned bin, and either the accumulator is
still the initial `(0, 0)` or it holds the first bin attaining the strict
maximum. -/
lemma find_peak_aux_spec (buffer : List (ℝ × ℝ)) (k : ℕ) :
    0 ≤ (find_peak_aux buffer k).2 ∧
    (∀ j, 1 ≤ j → j ≤ k → mag buffer j ≤ (find_peak_aux buffer k).2) ∧
    (find_peak_aux buffer k = (0, 0) ∨
      (1 ≤ (find_peak_aux buffer k).1 ∧ (find_peak_aux buffer k).1 ≤ k ∧
        mag buffer (find_peak_aux buffer k).1 = (find_peak_aux buffer k).2 ∧
        0 < (find_peak_aux buffer k).2 ∧
        ∀ j, 1 ≤ j → j < (find_peak_aux buffer k).1 →
          mag buffer j < (find_peak_aux buffer k).2)) := by
  induction k with
  | zero =>
    refine ⟨le_refl 0, ?_, Or.inl rfl⟩
    intro j h1 h0
    omega
  | succ k ih =>
    have hconcat : List.range' 1 (k + 1) = List.range' 1 k ++ [k + 1] := by
      have h1 : 1 + 1 * k = k + 1 := by ring
      rw [List.range'_concat, h1]
    have hfold : find_peak_aux buffer (k + 1)
        = peak_step buffer (find_peak_aux buffer k) (k + 1) := by
      unfold find_peak_aux
      rw [hconcat, List.foldl_append]
      simp
    obtain ⟨h0, hle, hdisj⟩ := ih
    rw [hfold, peak_step]
    by_cases hc : (find_peak_aux buffer k).2 < mag buffer (k + 1)
    · rw [if_pos hc]
      have hpos : 0 < mag buffer (k + 1) := lt_of_le_of_lt h0 hc
      refine ⟨le_of_lt hpos, ?_, Or.inr ⟨by omega, le_refl _, rfl, hpos, ?_⟩⟩
      · intro j h1 hj
        by_cases hjk : j ≤ k
        · exact le_of_lt (lt_of_le_of_lt (hle j h1 hjk) hc)
        · have hj1 : j = k + 1 := by omega
          rw [hj1]
      · intro j h1 hj
        exact lt_of_le_of_lt (hle j h1 (by omega)) hc
    · rw [if_neg hc]
      have hk1 : mag buffer (k + 1) ≤ (find_peak_aux buffer k).2 := not_lt.mp hc
      refine ⟨h0, ?_, ?_⟩
      · intro j h1 hj
        by_cases hjk : j ≤ k
        · exact hle j h1 hjk
        · have hj1 : j = k + 1 := by omega
          rw [hj1]
          exact hk1
      · rcases hdisj with hq | hq
        · exact Or.inl hq
        · obtain ⟨ha, hb, hm, hp, hfirst⟩ := hq
          exact Or.inr ⟨ha, by omega, hm, hp, hfirst⟩

/-- Claim C6, amended: the scan covers exactly bins `1` through `N/2 - 1`
and its result dominates every scanned magnitude; whenever some scanned bin
has nonzero magnitude, the returned bin is the lowest-index bin attaining
the maximum scanned magnitude (strict maximum over all earlier bins);
when every scanned magnitude is zero the initial state `(0, 0)` -- bin 0,
outside the scanned range -- is returned instead. -/
theorem C6_theorem (buffer : List (ℝ × ℝ)) :
    (∀ j, 1 ≤ j → j ≤ buffer.length / 2 - 1 → mag buffer j ≤ (find_peak buffer).2) ∧
    ((∃ j, 1 ≤ j ∧ j ≤ buffer.length / 2 - 1 ∧ 0 < mag buffer j) →
      1 ≤ (find_peak buffer).1 ∧ (find_peak buffer).1 ≤ buffer.length / 2 - 1 ∧
      mag buffer (find_peak buffer).1 = (find_peak buffer).2 ∧
      ∀ j, 1 ≤ j → j < (find_peak buffer).1 → mag buffer j < (find_peak buffer).2) ∧
    ((∀ j, 1 ≤ j → j ≤ buffer.length / 2 - 1 → mag buffer j = 0) →
      find_peak buffer = (0, 0)) := by
  obtain ⟨h0, hle, hdisj⟩ := find_peak_aux_spec buffer (buffer.length / 2 - 1)
  refine ⟨hle, ?_, ?_⟩
  · rintro ⟨j, h1, hj, hpos⟩
    rcases hdisj with hq | hq
    · exfalso
      have hzero := hle j h1 hj
      rw [hq] at hzero
      exact lt_irrefl 0 (lt_of_lt_of_le hpos hzero)
    · exact ⟨hq.1, hq.2.1, hq.2.2.1, hq.2.2.2.2⟩
  · intro hall
    rcases hdisj with hq | hq
    · exact hq
    · exfalso
      obtain ⟨ha, hb, hm, hp, _⟩ := hq
      have hz := hall _ ha hb
      rw [hm] at hz
      rw [hz] at hp
      exact lt_irrefl 0 hp

/-- A six-bin spectrum whose bin 1 is `3 + 4i` (magnitude 5). -/
noncomputable def witBuf : List (ℝ × ℝ) := [(0, 0), (3, 4), (0, 0), (0, 0), (0, 0), (0, 0)]

lemma witBuf_mag1 : 0 < mag witBuf 1 := by
  have h : mag witBuf 1 = Real.sqrt ((3 : ℝ) ^ 2 + (4 : ℝ) ^ 2) := by
    simp [mag, witBuf, cnorm]
  rw [h]
  exact Real.sqrt_pos.mpr (by norm_num)

/-- Witness for C6 on `witBuf`: bin 1 has positive magnitude, so the result
is the first maximal scanned bin. -/
theorem C6_witness :
    (∃ j, 1 ≤ j ∧ j ≤ witBuf.length / 2 - 1 ∧ 0 < mag witBuf j) ∧
    (1 ≤ (find_peak witBuf).1 ∧ (find_peak witBuf).1 ≤ witBuf.length / 2 - 1 ∧
      mag witBuf (find_peak witBuf).1 = (find_peak witBuf).2 ∧
      ∀ j, 1 ≤ j → j < (find_peak witBuf).1 → mag witBuf j < (find_peak witBuf).2) := by
  have hex : ∃ j, 1 ≤ j ∧ j ≤ witBuf.length / 2 - 1 ∧ 0 < mag witBuf j :=
    ⟨1, le_refl 1, by norm_num [witBuf], witBuf_mag1⟩
  exact ⟨hex, (C6_theorem witBuf).2.1 hex⟩

/-- The all-zero four-bin spectrum. -/
noncomputable def zeroBuf : List (ℝ × ℝ) := [(0, 0), (0, 0), (0, 0), (0, 0)]

lemma zeroBuf_mag1 : mag zeroBuf 1 = 0 := by
  have h : mag zeroBuf 1 = Real.sqrt ((0 : ℝ) ^ 2 + (0 : ℝ) ^ 2) := by
    simp [mag, zeroBuf, cnorm]
  rw [h]
  norm_num

lemma zeroBuf_scan : zeroBuf.length / 2 - 1 = 1 := by
  norm_num [zeroBuf]

/-- Counterexample to claim C6 as stated: on the all-zero length-4 spectrum
the scanned range is the single bin 1, which trivially attains the largest
scanned magnitude, so the claim demands bin 1; the code keeps its initial
`max_bin = 0` because no magnitude strictly exceeds the initial `0.0`, and
bin 0 is outside the claimed scanned range. -/
theorem C6_counterexample :
    (∀ j, 1 ≤ j → j ≤ zeroBuf.length / 2 - 1 → mag zeroBuf j ≤ mag zeroBuf 1) ∧
    (find_peak zeroBuf).1 ≠ 1 := by
  have hfp : find_peak zeroBuf = (0, 0) := by
    unfold find_peak
    rw [zeroBuf_scan]
    unfold find_peak_aux
    rw [show List.range' 1 1 = [1] from rfl]
    simp only [List.foldl_cons, List.foldl_nil]
    rw [peak_step, if_neg (by rw [zeroBuf_mag1]; exact lt_irrefl 0)]
  constructor
  · intro j h1 hj
    rw [zeroBuf_scan] at hj
    have hj1 : j = 1 := by omega
    rw [hj1]
  · rw [hfp]
    norm_num

end WavNoteDetector
